import Mathlib

/-!
Verification of the lambda-calculus parser and type inferencer
(`src/parse.c`, `src/type.c`, `src/lambda.h`).

The C code is embedded shallowly: the AST is a list of tagged nodes, the
parser is a fuel-indexed family of mutually recursive functions mirroring
`parse_expr` / `parse_non_call_expr` / `parse_lambda`, and the type solver
is a fold over node indices carrying a union-find slot table.  Fatal
internal errors (`DIE_IF`) are modelled as `none` / `PRes.die`; unsigned
machine arithmetic is modelled on `Nat`/`Int` with explicit `% 2 ^ 32`
where the C code can wrap.
-/

namespace Lambda

/-- One AST node (`AstNode` in `lambda.h`).  `var` is `ANT_VAR` (a free
variable carrying a `uint32_t` token), `call` is `ANT_CALL` (carrying
`arg_size`).  `bound` and `lam` are the nodes emitted by `push_bound` and
`parse_lambda` in `parse.c`; their tag values are not among the sources
(see `antTag`). -/
inductive AstNode where
  | var (token : Nat)
  | bound (depth : Nat)
  | lam
  | call (arg_size : Nat)
deriving DecidableEq, Repr

/-- Modelled from the spec: the header seen by the sources defines only the
tags `ANT_VAR = 1` and `ANT_CALL = 2`; the `Bound` and `Lambda` variants
used by `parse.c` are separate node kinds per the spec's data model, so
their tags are distinct from 1 and 2.  We assign them 3 and 4. -/
def antTag : AstNode → Nat
  | .var _ => 1
  | .call _ => 2
  | .bound _ => 3
  | .lam => 4

/-- Parser / AST state: the `Ast` struct of `parse.c` minus the
diagnostics-formatting fields (out of scope).  `errors` is the append-only
syntax-error log (message tags only), `binding_depths` has one entry per
letter of the 26-letter alphabet. -/
structure Ast where
  nodes : List AstNode
  nalloc : Nat
  errors : List String
  current_depth : Nat
  binding_depths : List Nat
deriving DecidableEq, Repr

def addErr (st : Ast) (m : String) : Ast :=
  { st with errors := st.errors ++ [m] }

/-- `ast_node_alloc` for a single node: fatal (`none`) when the capacity
fixed at creation would be exceeded. -/
def ast_node_alloc (st : Ast) (n : AstNode) : Option Ast :=
  if st.nodes.length + 1 ≤ st.nalloc then some { st with nodes := st.nodes ++ [n] }
  else none

/-- `idx_from_letter`: `(uint8_t)c - (uint8_t)'a'` in 8-bit arithmetic. -/
def idx_from_letter (c : Char) : Nat := ((c.toNat % 256) + 159) % 256

/-- `idx_from_digit`: `(uint8_t)c - (uint8_t)'0'` in 8-bit arithmetic. -/
def idx_from_digit (c : Char) : Nat := ((c.toNat % 256) + 208) % 256

def eat_white : List Char → List Char
  | [] => []
  | c :: r => if c = ' ' ∨ c = '\t' ∨ c = '\n' then eat_white r else c :: r

/-- `lex_varname`: yields `-1` without consuming anything when the head is
not a lowercase letter; otherwise the letter's index.  A run of two or more
letters is consumed whole and records a syntax error. -/
def lex_varname (st : Ast) (l : List Char) : Ast × Int × List Char :=
  match l with
  | [] => (st, -1, [])
  | c :: r =>
    if 26 ≤ idx_from_letter c then (st, -1, c :: r)
    else
      match r with
      | [] => (st, (idx_from_letter c : Int), [])
      | c2 :: _ =>
        if 26 ≤ idx_from_letter c2 then (st, (idx_from_letter c : Int), r)
        else (addErr st "Multi-byte varnames are not allowed",
              (idx_from_letter c : Int),
              r.dropWhile (fun ch => idx_from_letter ch < 26))

/-- `lex_int`, same shape as `lex_varname` over digits. -/
def lex_int (st : Ast) (l : List Char) : Ast × Int × List Char :=
  match l with
  | [] => (st, -1, [])
  | c :: r =>
    if 10 ≤ idx_from_digit c then (st, -1, c :: r)
    else
      match r with
      | [] => (st, (idx_from_digit c : Int), [])
      | c2 :: _ =>
        if 10 ≤ idx_from_digit c2 then (st, (idx_from_digit c : Int), r)
        else (addErr st "Multi-digit nums are not allowed",
              (idx_from_digit c : Int),
              r.dropWhile (fun ch => idx_from_digit ch < 10))

/-- `push_varname`: `DIE_IF(token + 'a' > 'z')` (signed), then stores the
token as a `uint32_t` (so `-1` is stored as `2^32 - 1`). -/
def push_varname (st : Ast) (token : Int) : Option Ast :=
  if 122 < token + 97 then none
  else ast_node_alloc st (.var (token.emod (2 ^ 32)).toNat)

/-- `push_bound`: `DIE_IF(depth < 0)`. -/
def push_bound (st : Ast) (depth : Int) : Option Ast :=
  if depth < 0 then none
  else ast_node_alloc st (.bound depth.toNat)

/-- `current_depth - bdepth` computed in `uint32_t` and then passed as a
(signed) `int32_t` to `push_bound`. -/
def depth_diff (d b : Nat) : Int :=
  let u : Nat := (d + 2 ^ 32 - b % 2 ^ 32) % 2 ^ 32
  if u < 2 ^ 31 then (u : Int) else (u : Int) - 2 ^ 32

/-- `push_var`: a bare varname becomes a `Bound` node when its name has a
recorded binding depth, a free `Var` node otherwise. -/
def push_var (st : Ast) (token : Int) : Option Ast :=
  if 122 < token + 97 then none
  else
    let bdepth := st.binding_depths.getD token.toNat 0
    if bdepth = 0 then push_varname st token
    else push_bound st (depth_diff st.current_depth bdepth)

/-- Result of a parsing function: `die` models a `DIE_IF` abort, `fail`
models a `NULL` return (the mutated state survives), `ok` carries the state
and the rest of the input.  `nofuel` marks fuel exhaustion of the model and
occurs for no input that the theorems touch. -/
inductive PRes where
  | die
  | nofuel
  | fail (st : Ast)
  | ok (st : Ast) (rest : List Char)
deriving DecidableEq, Repr

def PRes.restOf : PRes → Option (List Char)
  | .ok _ rest => some rest
  | _ => none

def PRes.stOf : PRes → Option Ast
  | .ok st _ => some st
  | .fail st => some st
  | _ => none

/-- Set the binding environment as `parse_lambda` does on entry and on
exit: writes go to a sink when `token` is negative. -/
def setBinding (st : Ast) (token : Int) (d : Nat) : Ast :=
  if 0 ≤ token then { st with binding_depths := st.binding_depths.set token.toNat d }
  else st

def setDepth (st : Ast) (d : Nat) : Ast :=
  { st with current_depth := d }

/-- The `']'` check of `parse_lambda`: consume it, or record a syntax
error and continue. -/
def lambda_rbracket (st : Ast) (zE : List Char) : Ast × List Char :=
  if zE.head? = some ']' then (st, zE.tail)
  else (addErr st "Lambda does not end in rbracket", zE)

/-- The `token == 0` check of `parse_non_call_expr`: record the error and
coerce the index to 1. -/
def zero_coerce (st : Ast) (tok : Int) : Ast × Int :=
  if tok = 0 then (addErr st "0 is an invalid debrujin index", 1) else (st, tok)

mutual

/-- `parse_lambda` from `parse.c`.  Note: on a failed body parse it returns
`NULL` *before* restoring the binding depth and the current depth. -/
def parse_lambda : Nat → Ast → List Char → PRes
  | 0, _, _ => .nofuel
  | f+1, st, l =>
    match l with
    | c :: r =>
      if c = '[' then
      let zE := eat_white r
      let p1 := lex_varname st zE
      let st := p1.1
      let token := p1.2.1
      let zE := eat_white p1.2.2
      let p2 := lambda_rbracket st zE
      let st := p2.1
      let inner := st.current_depth + 1
      let prev := if 0 ≤ token then st.binding_depths.getD token.toNat 0 else 0
      let st := setBinding (setDepth st inner) token inner
      match parse_non_call_expr f st p2.2 with
      | .fail st1 => .fail (addErr st1 "Expected lambda body")
      | .ok st1 rest =>
        if st1.nodes.isEmpty then .die
        else
          let st1 := setDepth (setBinding st1 token prev) (inner - 1)
          match push_varname st1 token with
          | none => .die
          | some st2 =>
            match ast_node_alloc st2 .lam with
            | none => .die
            | some st3 => .ok st3 rest
      | r1 => r1
      else .die
    | [] => .die

/-- `parse_non_call_expr` from `parse.c`. -/
def parse_non_call_expr : Nat → Ast → List Char → PRes
  | 0, _, _ => .nofuel
  | f+1, st, l =>
    let p1 := lex_varname st l
    if 0 ≤ p1.2.1 then
      match push_var p1.1 p1.2.1 with
      | some st1 => .ok st1 p1.2.2
      | none => .die
    else
      let p2 := lex_int p1.1 l
      if 0 ≤ p2.2.1 then
        let p3 := zero_coerce p2.1 p2.2.1
        match push_bound p3.1 (p3.2 - 1) with
        | some st1 => .ok st1 p2.2.2
        | none => .die
      else
        match l with
        | c :: r =>
          if c = '(' then
            match parse_expr f p2.1 r with
            | .ok st1 rest =>
              if rest.head? = some ')' then .ok st1 rest.tail
              else .ok (addErr st1 "Unmatched lparen") rest
            | .fail st1 => .fail (addErr st1 "Unmatched lparen")
            | r1 => r1
          else if c = '[' then parse_lambda f p2.1 (c :: r)
          else .fail p2.1
        | [] => .fail p2.1

/-- `parse_expr` from `parse.c`: skip whitespace, then the recovery loop. -/
def parse_expr : Nat → Ast → List Char → PRes
  | 0, _, _ => .nofuel
  | f+1, st, l => parse_expr_while f st (eat_white l)

/-- The `while` loop of `parse_expr`: loop past malformed input, recording
one "Expected expr" error if the log is still empty. -/
def parse_expr_while : Nat → Ast → List Char → PRes
  | 0, _, _ => .nofuel
  | f+1, st, z1 =>
    match parse_non_call_expr f st z1 with
    | .ok st1 z => parse_expr_calls f st1 z
    | .fail st1 =>
      let st1 := if st1.errors.isEmpty then addErr st1 "Expected expr" else st1
      match z1 with
      | [] => .fail st1
      | _ :: r => parse_expr_while f st1 (eat_white r)
    | r1 => r1

/-- The `for` loop of `parse_expr`: each further `non-call-expr` becomes the
argument of a new `Call` node whose `arg_size` is the distance between the
new root and the previous root. -/
def parse_expr_calls : Nat → Ast → List Char → PRes
  | 0, _, _ => .nofuel
  | f+1, st, z0 =>
    if st.nodes.isEmpty then .die
    else
      let func := st.nodes.length - 1
      let z := eat_white z0
      match parse_non_call_expr f st z with
      | .fail st1 => .ok st1 z
      | .ok st1 z1 =>
        if st1.nodes.isEmpty then .die
        else
          let arg_size := st1.nodes.length - 1 - func
          if 2 ^ 31 - 1 < arg_size then .die
          else
            match ast_node_alloc st1 (.call arg_size) with
            | none => .die
            | some st2 => parse_expr_calls f st2 z1
      | r1 => r1

end

/-- Initial `Ast` as built by `parse`: capacity `strlen + 8`, all binding
depths zero. -/
def initAst (l : List Char) : Ast :=
  { nodes := [], nalloc := l.length + 8, errors := [], current_depth := 0,
    binding_depths := List.replicate 26 0 }

/-- Fuel handed to the model parser; generous for every input the theorems
evaluate. -/
def parseFuel (l : List Char) : Nat := 16 * l.length + 64

/-- `parse` from `parse.c`: returns the `Ast` even when syntax errors were
recorded, but `DIE`s (here: `none`) when source bytes remain unconsumed. -/
def parseAst (l : List Char) : Option Ast :=
  match parse_expr (parseFuel l) (initAst l) l with
  | .fail st => some st
  | .ok st [] => some st
  | .ok _ (_ :: _) => none
  | _ => none

/-- `ast_postfix` from `parse.c`: `DIE_IF(!nnodes)`. -/
def ast_post_fix (ast : Ast) : Option (List AstNode × Nat) :=
  if ast.nodes.length = 0 then none else some (ast.nodes, ast.nodes.length)

-- ------------------------------------------------------------------
-- `src/type.c`

/-- The two tags `ast_unpack` recognizes. -/
inductive ANT where
  | varT
  | callT
deriving DecidableEq, Repr

/-- `ast_unpack` from `lambda.h`: a `Call` node decodes to its callee index
`idx - arg_size - 1` (computed in `uint32_t`), a `Var` node to its token;
any other tag hits the fatal bad-type-id branch (`none`). -/
def ast_unpack (nodes : List AstNode) (idx : Nat) : Option (ANT × Nat) :=
  match nodes[idx]? with
  | some (.var tok) => some (.varT, tok)
  | some (.call s) => some (.callT, (idx % 2 ^ 32 + 2 ^ 32 - (s + 1) % 2 ^ 32) % 2 ^ 32)
  | _ => none

/-- One type slot (`struct Type`): the union-find master reference and the
optional function structure (`arg_t`, `ret_t`), all stored as slot
indices.  `coerce_to_fun_type` always sets both child references together
and copies are verbatim, so they are modelled as one optional pair. -/
structure TSlot where
  master : Nat
  fn : Option (Nat × Nat)
deriving DecidableEq, Repr

/-- Write only the `master` field of slot `i` (what `t->master_t = ...`
does). -/
def setMaster (types : List TSlot) (i r : Nat) : List TSlot :=
  match types[i]? with
  | some s => types.set i { s with master := r }
  | none => types

/-- `pmasterise`: chase the master chain to the class representative,
compressing the path.  Fuel bounds the chain length; an out-of-range read
is modelled as `none`. -/
def pmasterise : Nat → List TSlot → Nat → Option (List TSlot × Nat)
  | 0, _, _ => none
  | f+1, types, i =>
    match types[i]? with
    | none => none
    | some t =>
      if t.master = i then some (types, i)
      else
        match pmasterise f types t.master with
        | none => none
        | some (ts, r) => some (setMaster ts i r, r)

/-- `masterise`: an acyclic master chain visits at most `length` distinct
slots, so this fuel is always sufficient. -/
def masterise (types : List TSlot) (i : Nat) : Option (List TSlot × Nat) :=
  pmasterise (types.length + 1) types i

/-- `unify` from `type.c`, including its asymmetric first branch: when the
`a` representative is unbound and `b`'s carries function structure, `b`'s
contents are copied into `a`'s slot (which stays master) and `b`'s slot is
reset to point at `a`. -/
def unify : Nat → List TSlot → Nat → Nat → Option (List TSlot)
  | 0, _, _, _ => none
  | f+1, types, ia0, ib0 =>
    if ia0 = ib0 then some types
    else
      match masterise types ia0 with
      | none => none
      | some (types1, ia) =>
        match masterise types1 ib0 with
        | none => none
        | some (types2, ib) =>
          match types2[ia]?, types2[ib]? with
          | some a, some b =>
            if a.fn = none ∧ b.fn ≠ none then
              let types3 := types2.set ia { master := ia, fn := b.fn }
              let types4 := types3.set ib { master := ia, fn := none }
              match masterise types4 ib with
              | none => none
              | some (types5, _) => some types5
            else
              let types3 := setMaster types2 ib ia
              match masterise types3 ib with
              | none => none
              | some (types4, _) =>
                match b.fn with
                | none => some types4
                | some bp =>
                  match a.fn with
                  | some ap =>
                    match unify f types4 ap.1 bp.1 with
                    | none => none
                    | some types5 => unify f types5 ap.2 bp.2
                  | none => none
          | _, _ => none

/-- `coerce_to_fun_type`: give the callee's representative function
structure, or unify component-wise with the structure it already has.
`iarg = icall - 1` is `ast_arg_idx`. -/
def coerce_to_fun_type (uf : Nat) (types : List TSlot) (ifun0 icall : Nat) :
    Option (List TSlot) :=
  let iarg := icall - 1
  let iret := icall
  match masterise types ifun0 with
  | none => none
  | some (types1, ifun) =>
    match types1[ifun]? with
    | none => none
    | some fslot =>
      match fslot.fn with
      | some fp =>
        match unify uf types1 fp.1 iarg with
        | none => none
        | some types2 => unify uf types2 fp.2 icall
      | none =>
        match masterise types1 iarg with
        | none => none
        | some (types2, ma) =>
          match masterise types2 iret with
          | none => none
          | some (types3, mr) =>
            match types3[ifun]? with
            | none => none
            | some s => some (types3.set ifun { s with fn := some (ma, mr) })

/-- The solver state: first-occurrence bindings (one optional slot index
per letter) and the per-node type slots. -/
structure TypeTree where
  bindings : List (Option Nat)
  types : List TSlot
deriving DecidableEq, Repr

/-- The body of `solve_types`'s loop for one node index `k`:
`DIE_IF(val > MAX_TOKS)` on a var token, snapshot-copy on a repeated free
name, record the first occurrence otherwise, and coerce the callee on a
call node. -/
def solve_step (exprs : List AstNode) (uf : Nat) (tt : TypeTree) (k : Nat) :
    Option TypeTree :=
  match ast_unpack exprs k with
  | some (.varT, v) =>
    if 26 < v then none
    else
      match tt.bindings.getD v none with
      | some b =>
        match tt.types[b]? with
        | none => none
        | some slot => some { tt with types := tt.types.set k slot }
      | none => some { tt with bindings := tt.bindings.set v (some k) }
  | some (.callT, v) =>
    match coerce_to_fun_type uf tt.types v k with
    | none => none
    | some types1 => some { tt with types := types1 }
  | none => none

/-- The `TypeTree` as `build_type_tree` initializes it: no first
occurrences recorded, every slot unbound and its own master. -/
def solveInit (size : Nat) : TypeTree :=
  ⟨List.replicate 26 none, (List.range size).map (fun i => ⟨i, none⟩)⟩

/-- The first `n` iterations of `solve_types`'s loop. -/
def solveUpTo (exprs : List AstNode) (uf : Nat) (size n : Nat) : Option TypeTree :=
  (List.range n).foldlM (solve_step exprs uf) (solveInit size)

/-- `build_type_tree` + `solve_types`: slots initialized to
"unbound, master = self", then one pass over the nodes in storage order. -/
def solve_types (exprs : List AstNode) (uf : Nat) (size : Nat) : Option TypeTree :=
  solveUpTo exprs uf size size

-- ------------------------------------------------------------------
-- The type printer (`Unparser` in `type.c`)

/-- `MAX_DEPTH`, the printer stack's fixed capacity. -/
def MAX_DEPTH : Nat := 16

/-- The loop of `print_typename`: unwrap `Call` nodes to their callee,
counting the hops. -/
def typename_core : Nat → List AstNode → Nat → Option (Nat × Nat)
  | 0, _, _ => none
  | f+1, exprs, idx =>
    match ast_unpack exprs idx with
    | some (.callT, v) =>
      match typename_core f exprs v with
      | none => none
      | some p => some (p.1, p.2 + 1)
    | some (.varT, v) => some (v, 0)
    | none => none

/-- `print_typename`: the base node's letter (`val + 'A'`, written through
`fputc`'s cast to a byte) followed by one `r` per unwrapped call. -/
def print_typename (exprs : List AstNode) (idx : Nat) : Option (List Char) :=
  match typename_core (idx + 2) exprs idx with
  | none => none
  | some p => some (Char.ofNat ((p.1 + 65) % 256) :: List.replicate p.2 'r')

/-- Printer state: the (still compressible) slot table, the
recursion-guard stack of representative slots on the current path, and the
largest depth the stack ever reached (`stack.length` is `unp->depth`).
`unparse_push` in `type.c` scans the live entries and then stores at
`stack[depth]` without any capacity check. -/
structure Unp where
  types : List TSlot
  stack : List Nat
  maxd : Nat
deriving DecidableEq, Repr

def unparse_push (u : Unp) (ti : Nat) : Bool × Unp :=
  if ti ∈ u.stack then (false, u)
  else
    (true,
     { u with stack := u.stack ++ [ti], maxd := max u.maxd (u.stack.length + 1) })

def unparse_pop (u : Unp) : Unp :=
  { u with stack := u.stack.dropLast }

/-- `unparse_type_`: resolve to the representative, print its name, and
expand its function structure unless the slot is already on the current
expansion path. -/
def unparse_type_ : Nat → List AstNode → Unp → Nat → Option (Unp × List Char)
  | 0, _, _, _ => none
  | f+1, exprs, u0, t0 =>
    match masterise u0.types t0 with
    | none => none
    | some (types1, idx) =>
      let u := { u0 with types := types1 }
      match print_typename exprs idx with
      | none => none
      | some name =>
        match types1[idx]? with
        | none => none
        | some slot =>
          match slot.fn with
          | none => some (u, name)
          | some fp =>
            match unparse_push u idx with
            | (false, u1) => some (u1, name)
            | (true, u1) =>
              match unparse_type_ f exprs u1 fp.1 with
              | none => none
              | some (u2, s1) =>
                match unparse_type_ f exprs u2 fp.2 with
                | none => none
                | some (u3, s2) =>
                  some (unparse_pop u3,
                        name ++ ('=' :: '(' :: s1) ++ (' ' :: s2) ++ [')'])

/-- `act_type`: build and solve the type tree, then print every slot's
resolved type, one line each.  Returns the output together with the
largest recursion-guard depth the printer reached anywhere in the run
(each `unparse_type` call starts with a fresh, empty stack; the slot table
with its path compressions persists across calls). -/
def act_type_model (ast : Ast) : Option (List Char × Nat) :=
  match ast_post_fix ast with
  | none => none
  | some p =>
    let exprs := p.1
    let size := p.2
    match solve_types exprs (64 + 8 * size) size with
    | none => none
    | some tt =>
      match (List.range size).foldlM
          (fun (acc : Unp × List Char) k =>
            match unparse_type_ (size + 8) exprs { acc.1 with stack := [] } k with
            | none => none
            | some r => some (r.1, acc.2 ++ r.2 ++ ['\n']))
          (⟨tt.types, [], 0⟩, []) with
      | none => none
      | some acc => some (acc.2, acc.1.maxd)

-- ------------------------------------------------------------------
-- Abstract syntax trees and their postfix encoding

/-- The tree a well-formed node sequence encodes.  A lambda's flattening is
its body followed by the trailing bound-name `Var` slot (token as stored,
i.e. already cast to `uint32_t`) and the `Lambda` marker. -/
inductive Tree where
  | var (token : Nat)
  | bound (depth : Nat)
  | lam (token : Nat) (body : Tree)
  | call (f : Tree) (a : Tree)
deriving DecidableEq, Repr

/-- Postfix encoding: every subtree is contiguous with its root last. -/
def flatten : Tree → List AstNode
  | .var t => [.var t]
  | .bound d => [.bound d]
  | .lam t b => flatten b ++ [.var t, .lam]
  | .call f a => flatten f ++ flatten a ++ [.call (flatten a).length]

def tsize : Tree → Nat
  | .var _ => 1
  | .bound _ => 1
  | .lam _ b => tsize b + 2
  | .call f a => tsize f + tsize a + 1

def tdepth : Tree → Nat
  | .var _ => 1
  | .bound _ => 1
  | .lam _ b => tdepth b + 1
  | .call f a => max (tdepth f) (tdepth a) + 1

/-- The slot ranges (inclusive, root last) of all subtrees of a tree
flattened at offset `off`; for a lambda also the range of its trailing
bound-name slot. -/
def spans : Nat → Tree → List (Nat × Nat)
  | off, .var _ => [(off, off)]
  | off, .bound _ => [(off, off)]
  | off, .lam _ b => spans off b ++ [(off + tsize b, off + tsize b), (off, off + tsize b + 1)]
  | off, .call f a => spans off f ++ spans (off + tsize f) a ++ [(off, off + tsize f + tsize a)]

/-- Two slot ranges either do not intersect or one contains the other. -/
def NestedOrDisjoint (p q : Nat × Nat) : Prop :=
  p.2 < q.1 ∨ q.2 < p.1 ∨ (q.1 ≤ p.1 ∧ p.2 ≤ q.2) ∨ (p.1 ≤ q.1 ∧ q.2 ≤ p.2)

-- ------------------------------------------------------------------
-- The unparse pass (declared `act_unparse` in `lambda.h`)

/-- Modelled from the spec: the sources declare `act_unparse` ("print the
lambda-program back to source form") but do not contain its definition.
Per the spec's round-trip property and the README's `unparse` sketch, a
free variable prints as its letter and a call prints as
`'(' callee ' ' argument ')'`, children located by the postfix rule. -/
def unparse_node : Nat → List AstNode → Nat → Option (List Char)
  | 0, _, _ => none
  | f+1, nodes, idx =>
    match nodes[idx]? with
    | some (.var tok) => some [Char.ofNat ((tok + 97) % 256)]
    | some (.call s) =>
      match unparse_node f nodes (idx - s - 1), unparse_node f nodes (idx - 1) with
      | some cf, some ca => some (('(' :: cf) ++ (' ' :: ca) ++ [')'])
      | _, _ => none
    | _ => none

/-- Modelled from the spec: whole-program unparse, printing the root
(last) node. -/
def unparseAst (ast : Ast) : Option (List Char) :=
  if ast.nodes.isEmpty then none
  else unparse_node (ast.nodes.length + 1) ast.nodes (ast.nodes.length - 1)

/-- The fully parenthesized canonical form of an application-only tree. -/
def canon : Tree → List Char
  | .var tok => [Char.ofNat ((tok + 97) % 256)]
  | .bound _ => []
  | .lam _ _ => []
  | .call f a => ('(' :: canon f) ++ (' ' :: canon a) ++ [')']

/-- Application-only trees built from free variables. -/
def appOnly : Tree → Bool
  | .var _ => true
  | .call f a => appOnly f && appOnly a
  | .bound _ => false
  | .lam _ _ => false

/-- How many times the one-letter type name `c` occurs in printer output
*without* structure following it: an occurrence followed by `=` is an
expanded occurrence, and one followed by `r` is part of a longer derived
name (`print_typename` appends `r`s to the base letter). -/
def nameOnlyCount (c : Char) : List Char → Nat
  | [] => 0
  | a :: rest =>
    (if a = c && !(rest.head? = some '=' || rest.head? = some 'r') then 1 else 0)
      + nameOnlyCount c rest

/-- An 18-variable chain of applications: its first variable's inferred
type is a 17-deep nest of function types, deeper than the printer stack's
capacity. -/
def progC2 : List Char := "a b c d e f g h i j k l m n o p q r".data

/-- The 35 postfix nodes of `progC2`. -/
def nodesC2 : List AstNode :=
  [.var 0, .var 1, .call 1, .var 2, .call 1, .var 3, .call 1, .var 4, .call 1,
   .var 5, .call 1, .var 6, .call 1, .var 7, .call 1, .var 8, .call 1,
   .var 9, .call 1, .var 10, .call 1, .var 11, .call 1, .var 12, .call 1,
   .var 13, .call 1, .var 14, .call 1, .var 15, .call 1, .var 16, .call 1,
   .var 17, .call 1]

/-- The `Ast` that parsing `progC2` produces. -/
def astC2 : Ast :=
  { nodes := nodesC2, nalloc := 43, errors := [], current_depth := 0,
    binding_depths := List.replicate 26 0 }

/-- What a parsing function does to the node store: on success it appends
exactly the postfix encoding of one complete tree; on a `NULL` return it
appends nothing; fatal outcomes carry no state. -/
def Emits (st : Ast) : PRes → Prop
  | .ok st1 _ => ∃ t, st1.nodes = st.nodes ++ flatten t
  | .fail st1 => st1.nodes = st.nodes
  | _ => True

/-- What the `for` loop of `parse_expr` does to the node store: if the
store held a forest ending in one complete tree, on return it again ends
in one complete tree over the same base; the loop never returns `NULL`. -/
def EmitsLoop (st : Ast) : PRes → Prop
  | .ok st1 _ => ∀ (base : List AstNode) (t0 : Tree),
      st.nodes = base ++ flatten t0 → ∃ t, st1.nodes = base ++ flatten t
  | .fail _ => False
  | _ => True

-- ==================================================================
-- Theorems

set_option maxRecDepth 8000 in
/-- Parsing the 18-variable application chain yields `astC2`. -/
theorem parse_progC2 : parseAst progC2 = some astC2 := by
  simp only [progC2, astC2, nodesC2]
  simp [parseAst, parseFuel, parse_expr, parse_expr_while, parse_expr_calls,
        parse_non_call_expr, parse_lambda, lex_varname, lex_int, eat_white,
        push_var, push_varname, push_bound, ast_node_alloc, initAst, addErr,
        lambda_rbracket, zero_coerce,
        idx_from_letter, idx_from_digit, depth_diff, List.replicate]
  decide

set_option maxRecDepth 8000 in
/-- Evaluation of the full pipeline on the 18-variable application chain:
the printer's recursion-guard depth reaches 17. -/
theorem depth17_eval :
    ((parseAst progC2).bind act_type_model).map Prod.snd = some 17 := by
  rw [parse_progC2]
  decide

/-- C2: the spec demands that exceeding the printer stack's fixed capacity
(`MAX_DEPTH = 16`) be a fatal error, but `unparse_push` has no capacity
check at all: on the 18-variable chain of applications the printer's
recursion-guard depth reaches 17 > `MAX_DEPTH` and the run still completes
with output (in the C code this is an out-of-bounds write past
`stack[MAX_DEPTH-1]`, not an abort), and a push of a slot not on the stack
always succeeds whatever the depth. -/
theorem claim_C2_overflow_not_fatal :
    ((parseAst progC2).bind act_type_model).map Prod.snd = some 17
    ∧ MAX_DEPTH < 17
    ∧ ∀ (u : Unp) (ti : Nat), ti ∉ u.stack →
        unparse_push u ti =
          (true, { u with stack := u.stack ++ [ti],
                          maxd := max u.maxd (u.stack.length + 1) }) := by
  refine ⟨depth17_eval, by decide, ?_⟩
  intro u ti h
  simp [unparse_push, h]

/-- C2 witness: the capacity-free push at a concrete stack of length
`MAX_DEPTH`. -/
theorem claim_C2_overflow_not_fatal_witness :
    unparse_push ⟨[], List.range 16, 16⟩ 20 =
      (true, ⟨[], List.range 16 ++ [20], 17⟩) := by
  have h := claim_C2_overflow_not_fatal.2.2 ⟨[], List.range 16, 16⟩ 20 (by decide)
  simpa using h

/-- C6: on the self-application `x x` the inferred type of the callee slot
is self-referential; the printer model terminates with output
`X=(X Xr)` for that slot (and one line per slot overall), and within that
line the recursive representative's name `X` occurs exactly once
unexpanded (name only, not followed by `=(...)` structure). -/
theorem claim_C6_recursive_type_printing :
    ((parseAst "x x".data).bind act_type_model) =
      some ("X=(X Xr)\nX=(X Xr)\nXr\n".data, 1)
    ∧ nameOnlyCount 'X' "X=(X Xr)".data = 1 := by
  exact ⟨by decide, by decide⟩

/-- C7: source `0` records the syntax error and is coerced to index 1, so
its AST node is the same `Bound` node (stored depth 0) as for source `1`;
`lex_int` consumes exactly the one digit, and parsing continues normally
afterwards (`0 x` parses as an application). -/
theorem claim_C7_zero_index_coerced :
    (parseAst "0".data).map (fun a => (a.nodes, a.errors)) =
      some ([.bound 0], ["0 is an invalid debrujin index"])
    ∧ (parseAst "1".data).map (fun a => (a.nodes, a.errors)) = some ([.bound 0], [])
    ∧ (parseAst "0".data).map (·.nodes) = (parseAst "1".data).map (·.nodes)
    ∧ (lex_int (initAst "0 x".data) "0 x".data).2 = (0, " x".data)
    ∧ (parseAst "0 x".data).map (fun a => (a.nodes, a.errors)) =
        some ([.bound 0, .var 23, .call 1], ["0 is an invalid debrujin index"]) := by
  exact ⟨by decide, by decide, by decide, by decide, by decide⟩

/-- C9: for source `[]x` the missing parameter name yields token `-1`,
which `push_varname`'s guard (`token + 'a' > 'z'`, signed) does not
reject; a `Var` node with token `2^32 - 1 = 4294967295` is stored, parsing
succeeds without even a syntax error, and only the unifier's token check
(`DIE_IF(val > MAX_TOKS)`) fails — fatally — when it reaches that slot. -/
theorem claim_C9_negative_token_flows_to_unifier :
    (parseAst "[]x".data).map (fun a => (a.nodes, a.errors)) =
      some ([.var 23, .var 4294967295, .lam], [])
    ∧ (push_varname (initAst "[]x".data) (-1)).map (·.nodes) =
        some [.var 4294967295]
    ∧ ((parseAst "[]x".data).bind fun a => solveUpTo a.nodes 88 3 1).isSome = true
    ∧ ((parseAst "[]x".data).bind fun a => solveUpTo a.nodes 88 3 2) = none
    ∧ ((parseAst "[]x".data).bind act_type_model) = none := by
  exact ⟨by decide, by decide, by decide, by decide, by decide⟩

/-- C10: empty or all-whitespace source parses successfully into an AST
with zero nodes and exactly one "Expected expr" syntax error, but
`ast_postfix` treats the empty AST as fatal, so the type action on such an
AST dies instead of printing nothing. -/
theorem claim_C10_empty_ast_fatal_for_types :
    (parseAst "".data).map (fun a => (a.nodes, a.errors)) =
      some ([], ["Expected expr"])
    ∧ (parseAst "   ".data).map (fun a => (a.nodes, a.errors)) =
        some ([], ["Expected expr"])
    ∧ (parseAst "".data).map ast_post_fix = some none
    ∧ ((parseAst "".data).bind act_type_model) = none
    ∧ ((parseAst "   ".data).bind act_type_model) = none := by
  exact ⟨by decide, by decide, by decide, by decide, by decide⟩

/-- C4 counterexample: the claim's example source `[x] x` (with a space
before the body) does not produce an AST at all: the parser does not skip
whitespace before a lambda body, the body parse fails, error recovery
re-parses from `x`, and `parse` then dies on the unused trailing bytes
`] x` (`DIE_IF(zE && *zE)`).  Likewise for `[x] [y] x`. -/
theorem claim_C4_counterexample_space_body :
    parseAst "[x] x".data = none
    ∧ PRes.restOf
        (parse_expr (parseFuel "[x] x".data) (initAst "[x] x".data) "[x] x".data) =
        some "] x".data
    ∧ parseAst "[x] [y] x".data = none := by
  exact ⟨by decide, by decide, by decide⟩

/-- C5 counterexample: parsing `x (y z)` and re-printing reproduces the
canonical form of the tree that was parsed, which is `(x (y z))` — not
`((x y) z)` as the claim (following the README) states. -/
theorem claim_C5_counterexample_paren_arg :
    ((parseAst "x (y z)".data).bind unparseAst) = some "(x (y z))".data
    ∧ "(x (y z))".data ≠ "((x y) z)".data := by
  exact ⟨by decide, by decide⟩

/-- C3: in the solver's single pass, a `Var` node at `k` whose name already
has a first occurrence `b` receives a verbatim value copy of slot `b`'s
current contents — only slot `k` changes, the binding table does not, and
no union happens.  On `x x` this is visible end to end: at the copy
(after two steps) slot 1 holds `⟨0, none⟩`, the then-current value of slot
0; the third step then gives slot 0 function structure, and slot 1's
stored contents remain the old snapshot (they are reachable from the new
contents only through the copied `master` reference 0). -/
theorem xx_nodes_eval :
    (parseAst "x x".data).map Ast.nodes = some [.var 23, .var 23, .call 1] := by
  decide

theorem xx_after_copy_eval :
    solveUpTo [.var 23, .var 23, .call 1] 88 3 2 =
      some ⟨(List.replicate 26 (none : Option Nat)).set 23 (some 0),
            [⟨0, none⟩, ⟨0, none⟩, ⟨2, none⟩]⟩ := by
  decide

theorem xx_solved_eval :
    solve_types [.var 23, .var 23, .call 1] 88 3 =
      some ⟨(List.replicate 26 (none : Option Nat)).set 23 (some 0),
            [⟨0, some (0, 2)⟩, ⟨0, none⟩, ⟨2, none⟩]⟩ := by
  decide

theorem claim_C3_snapshot_copy :
    (∀ (exprs : List AstNode) (uf : Nat) (tt : TypeTree) (k v b : Nat) (slot : TSlot),
        ast_unpack exprs k = some (.varT, v) → v ≤ 26 →
        tt.bindings.getD v none = some b → tt.types[b]? = some slot →
        solve_step exprs uf tt k = some { tt with types := tt.types.set k slot })
    ∧ (parseAst "x x".data).map Ast.nodes = some [.var 23, .var 23, .call 1]
    ∧ solveUpTo [.var 23, .var 23, .call 1] 88 3 2 =
        some ⟨(List.replicate 26 (none : Option Nat)).set 23 (some 0),
              [⟨0, none⟩, ⟨0, none⟩, ⟨2, none⟩]⟩
    ∧ solve_types [.var 23, .var 23, .call 1] 88 3 =
        some ⟨(List.replicate 26 (none : Option Nat)).set 23 (some 0),
              [⟨0, some (0, 2)⟩, ⟨0, none⟩, ⟨2, none⟩]⟩ := by
  refine ⟨?_, xx_nodes_eval, xx_after_copy_eval, xx_solved_eval⟩
  intro exprs uf tt k v b slot hu hv hb hs
  have hv' : ¬ 26 < v := by omega
  have hb' : tt.bindings[v]?.getD none = some b := by
    rw [← List.getD_eq_getElem?_getD]; exact hb
  simp [solve_step, hu, hv', hb', hs]

/-- C3 witness: the copy step at a concrete two-`Var` state. -/
theorem claim_C3_snapshot_copy_witness :
    solve_step [.var 5, .var 5] 9
        ⟨(List.replicate 26 (none : Option Nat)).set 5 (some 0),
         [⟨0, none⟩, ⟨1, none⟩]⟩ 1 =
      some ⟨(List.replicate 26 (none : Option Nat)).set 5 (some 0),
            ([⟨0, none⟩, ⟨1, none⟩] : List TSlot).set 1 ⟨0, none⟩⟩ :=
  claim_C3_snapshot_copy.1 [.var 5, .var 5] 9
    ⟨(List.replicate 26 (none : Option Nat)).set 5 (some 0), [⟨0, none⟩, ⟨1, none⟩]⟩
    1 5 0 ⟨0, none⟩ (by decide) (by decide) (by decide) (by decide)

/-- `depth_diff` is plain subtraction for in-range depths. -/
theorem depth_diff_eq (d b : Nat) (hb : b ≤ d) (hd : d < 2 ^ 32)
    (hs : d - b < 2 ^ 31) : depth_diff d b = (d : Int) - (b : Int) := by
  unfold depth_diff
  have h1 : (d + 2 ^ 32 - b % 2 ^ 32) % 2 ^ 32 = d - b := by omega
  rw [h1]
  rw [if_pos hs]
  omega

/-- C4 (amended): the parser does not skip whitespace before a lambda
body, so the claim's spaced sources die; for the space-free sources the
claimed encodings hold, and in general `push_var` emits `Bound(D - d)` for
a name bound at depth `d > 0` under current depth `D`, and a free
`Var(token)` for an unbound name. -/
theorem lamx_nodes_eval :
    (parseAst "[x]x".data).map Ast.nodes = some [.bound 0, .var 23, .lam] := by
  decide

theorem lamxy_nodes_eval :
    (parseAst "[x][y]x".data).map Ast.nodes =
      some [.bound 1, .var 24, .lam, .var 23, .lam] := by
  simp [parseAst, parseFuel, parse_expr, parse_expr_while, parse_expr_calls,
        parse_non_call_expr, parse_lambda, lex_varname, lex_int, eat_white,
        push_var, push_varname, push_bound, ast_node_alloc, initAst, addErr,
        setBinding, setDepth, lambda_rbracket, zero_coerce,
        idx_from_letter, idx_from_digit, depth_diff, List.replicate]
  decide

theorem claim_C4_binding_distances :
    (parseAst "[x]x".data).map Ast.nodes = some [.bound 0, .var 23, .lam]
    ∧ (parseAst "[x][y]x".data).map Ast.nodes =
        some [.bound 1, .var 24, .lam, .var 23, .lam]
    ∧ ∀ (st : Ast) (token : Int) (d : Nat),
        0 ≤ token → token + 97 ≤ 122 →
        st.binding_depths.getD token.toNat 0 = d →
        st.current_depth < 2 ^ 32 →
        (d = 0 → push_var st token = push_varname st token)
        ∧ (0 < d → d ≤ st.current_depth → st.current_depth - d < 2 ^ 31 →
            push_var st token = push_bound st ((st.current_depth : Int) - (d : Int))) := by
  refine ⟨lamx_nodes_eval, lamxy_nodes_eval, ?_⟩
  intro st token d h0 h97 hd hlt
  have hguard : ¬ 122 < token + 97 := by omega
  constructor
  · intro hd0
    have hd' : st.binding_depths[token.toNat]?.getD 0 = 0 := by
      rw [← List.getD_eq_getElem?_getD]; omega
    simp [push_var, hguard, hd']
  · intro hpos hle hsmall
    have hd' : st.binding_depths[token.toNat]?.getD 0 = d := by
      rw [← List.getD_eq_getElem?_getD]; exact hd
    have hne : ¬ st.binding_depths[token.toNat]?.getD 0 = 0 := by omega
    simp [push_var, hguard, hd', hne,
          depth_diff_eq st.current_depth d hle hlt hsmall]
    intro h
    exact absurd h (by omega)

/-- C4 witness: a name bound at depth 1 used at depth 2 yields
`Bound(2 - 1)`. -/
theorem claim_C4_binding_distances_witness :
    push_var ⟨[], 4, [], 2, (List.replicate 26 0).set 3 1⟩ 3 =
      push_bound ⟨[], 4, [], 2, (List.replicate 26 0).set 3 1⟩ ((2 : Int) - (1 : Int)) :=
  (claim_C4_binding_distances.2.2 ⟨[], 4, [], 2, (List.replicate 26 0).set 3 1⟩ 3 1
      (by decide) (by decide) (by decide) (by decide)).2
    (by decide) (by decide) (by decide)

/-- Folding an `Option`-valued step over a list fails when some element of
the list fails from every state. -/
theorem foldlM_option_none_of_mem {α σ : Type} (f : σ → α → Option σ) (a : α)
    (h : ∀ s, f s a = none) :
    ∀ (l : List α), a ∈ l → ∀ s : σ, l.foldlM f s = none := by
  intro l
  induction l with
  | nil => intro h'; cases h'
  | cons b t ih =>
    intro hmem s
    rw [List.foldlM_cons]
    rcases List.mem_cons.mp hmem with rfl | hmem'
    · rw [h s]; rfl
    · cases hfb : f s b with
      | none => rfl
      | some s' => simpa [hfb] using ih hmem' s'

/-- If folding an `Option`-valued step over a list succeeds, every element
of the list succeeded from the state it was reached with. -/
theorem foldlM_option_some_mem {α σ : Type} (f : σ → α → Option σ) :
    ∀ (l : List α) (s r : σ), l.foldlM f s = some r →
      ∀ a ∈ l, ∃ s', (f s' a).isSome := by
  intro l
  induction l with
  | nil => intro s r _ a ha; cases ha
  | cons b t ih =>
    intro s r hfold a ha
    rw [List.foldlM_cons] at hfold
    cases hfb : f s b with
    | none => rw [hfb] at hfold; cases hfold
    | some s' =>
      rw [hfb] at hfold
      rcases List.mem_cons.mp ha with rfl | ha'
      · exact ⟨s, by simp [hfb]⟩
      · exact ih s' r hfold a ha'

theorem act_lamx_none : (parseAst "[x]x".data).bind act_type_model = none := by
  decide

theorem act_one_none : (parseAst "1".data).bind act_type_model = none := by
  decide

theorem act_xy_some : ((parseAst "x y".data).bind act_type_model).isSome = true := by
  decide

/-- C8: `ast_unpack` succeeds exactly on the tags `ANT_VAR = 1` and
`ANT_CALL = 2`; any node with another tag (`Lambda`, `Bound`) makes the
whole solver pass die, so the type action dies on every program containing
a lambda or a de Bruijn index literal, and a completed solve implies every
node was a `Var` or `Call` (application-only, free variables). -/
theorem claim_C8_only_var_call_tags :
    (∀ (nodes : List AstNode) (idx : Nat) (n : AstNode), nodes[idx]? = some n →
        ((ast_unpack nodes idx).isSome ↔ (antTag n = 1 ∨ antTag n = 2)))
    ∧ (∀ (exprs : List AstNode) (uf size k : Nat) (n : AstNode),
        k < size → exprs[k]? = some n → antTag n ≠ 1 → antTag n ≠ 2 →
        solve_types exprs uf size = none)
    ∧ (∀ (exprs : List AstNode) (uf size : Nat) (tt : TypeTree),
        solve_types exprs uf size = some tt →
        ∀ k, k < size → ∃ n, exprs[k]? = some n ∧ (antTag n = 1 ∨ antTag n = 2))
    ∧ ((parseAst "[x]x".data).bind act_type_model = none)
    ∧ ((parseAst "1".data).bind act_type_model = none)
    ∧ ((parseAst "x y".data).bind act_type_model).isSome = true := by
  refine ⟨?_, ?_, ?_, act_lamx_none, act_one_none, act_xy_some⟩
  · intro nodes idx n hn
    cases n <;> simp [ast_unpack, hn, antTag]
  · intro exprs uf size k n hk hn h1 h2
    have hdies : ∀ s : TypeTree, solve_step exprs uf s k = none := by
      intro s
      have hu : ast_unpack exprs k = none := by
        cases n <;> simp [antTag] at h1 h2 <;> simp [ast_unpack, hn]
      simp [solve_step, hu]
    exact foldlM_option_none_of_mem _ k hdies (List.range size)
      (List.mem_range.mpr hk) _
  · intro exprs uf size tt hsolve k hk
    obtain ⟨s', hs'⟩ := foldlM_option_some_mem _ (List.range size) _ tt hsolve k
      (List.mem_range.mpr hk)
    cases hu : ast_unpack exprs k with
    | none => rw [solve_step, hu] at hs'; cases hs'
    | some p =>
      cases hg : exprs[k]? with
      | none => rw [ast_unpack, hg] at hu; cases hu
      | some n =>
        refine ⟨n, rfl, ?_⟩
        cases n with
        | var t => simp [antTag]
        | call s => simp [antTag]
        | bound d => rw [ast_unpack, hg] at hu; cases hu
        | lam => rw [ast_unpack, hg] at hu; cases hu

theorem flatten_ne_nil : ∀ t : Tree, flatten t ≠ [] := by
  intro t
  cases t <;> simp [flatten]

theorem flatten_length : ∀ t : Tree, (flatten t).length = tsize t := by
  intro t
  induction t with
  | var tok => rfl
  | bound d => rfl
  | lam tok b ihb => simp [flatten, tsize, ihb]
  | call f a ihf iha => simp [flatten, tsize, ihf, iha]; omega

theorem tsize_pos : ∀ t : Tree, 1 ≤ tsize t := by
  intro t
  cases t <;> simp [tsize]

theorem tdepth_le_tsize : ∀ t : Tree, tdepth t ≤ tsize t := by
  intro t
  induction t with
  | var tok => rfl
  | bound d => rfl
  | lam tok b ihb => simp [tdepth, tsize]; omega
  | call f a ihf iha =>
    have hf := tsize_pos f
    have ha := tsize_pos a
    simp [tdepth, tsize]
    omega

/-- Unparsing a flattened application-only subtree embedded anywhere in a
node sequence reproduces its canonical form. -/
theorem unparse_on_flatten :
    ∀ (t : Tree) (pre post : List AstNode) (f : Nat), appOnly t = true →
      tdepth t ≤ f →
      unparse_node f (pre ++ flatten t ++ post) (pre.length + tsize t - 1) =
        some (canon t) := by
  intro t
  induction t with
  | bound d => intro pre post f happ; cases happ
  | lam tok b ihb => intro pre post f happ; cases happ
  | var tok =>
    intro pre post f _ hdep
    cases f with
    | zero => cases hdep
    | succ f' =>
      have hget : (pre ++ flatten (Tree.var tok) ++ post)[pre.length]? =
          some (.var tok) := by
        rw [List.append_assoc, List.getElem?_append_right (Nat.le_refl _)]
        simp [flatten]
      simp only [tsize, Nat.add_sub_cancel, unparse_node, hget, canon]
  | call tf ta ihf iha =>
    intro pre post f happ hdep
    rw [appOnly] at happ
    obtain ⟨hat, haa⟩ := Bool.and_eq_true_iff.mp happ
    cases f with
    | zero => cases hdep
    | succ f' =>
      rw [tdepth] at hdep
      have hdf : tdepth tf ≤ f' := by omega
      have hda : tdepth ta ≤ f' := by omega
      have hsf := tsize_pos tf
      have hsa := tsize_pos ta
      have hlenf := flatten_length tf
      have hlena := flatten_length ta
      have hidx : pre.length + tsize (Tree.call tf ta) - 1 =
          (pre ++ flatten tf ++ flatten ta).length := by
        simp [tsize, hlenf, hlena]
      have hget : (pre ++ flatten (Tree.call tf ta) ++ post)[pre.length +
          tsize (Tree.call tf ta) - 1]? = some (.call (tsize ta)) := by
        rw [hidx]
        have hre : pre ++ flatten (Tree.call tf ta) ++ post =
            (pre ++ flatten tf ++ flatten ta) ++
              ([AstNode.call (flatten ta).length] ++ post) := by
          simp [flatten]
        rw [hre, List.getElem?_append_right (Nat.le_refl _)]
        simp [hlena]
      rw [unparse_node, hget]
      dsimp only
      have harg1 : pre.length + tsize (Tree.call tf ta) - 1 - tsize ta - 1 =
          pre.length + tsize tf - 1 := by
        rw [tsize]; omega
      have harg2 : pre.length + tsize (Tree.call tf ta) - 1 - 1 =
          (pre ++ flatten tf).length + tsize ta - 1 := by
        simp [tsize, hlenf]; omega
      have hre1 : pre ++ flatten (Tree.call tf ta) ++ post =
          pre ++ flatten tf ++
            (flatten ta ++ ([AstNode.call (flatten ta).length] ++ post)) := by
        simp [flatten]
      have hre2 : pre ++ flatten (Tree.call tf ta) ++ post =
          (pre ++ flatten tf) ++ flatten ta ++
            ([AstNode.call (flatten ta).length] ++ post) := by
        simp [flatten]
      rw [harg1, harg2]
      have hf1 := ihf pre (flatten ta ++ ([AstNode.call (flatten ta).length] ++ post))
        f' hat hdf
      have hf2 := iha (pre ++ flatten tf) ([AstNode.call (flatten ta).length] ++ post)
        f' haa hda
      rw [← hre1] at hf1
      rw [← hre2] at hf2
      rw [hf1, hf2]
      simp [canon]

/-- C5 (amended): for every valid application-only program, parsing and
re-printing reproduces the fully parenthesized canonical form of the
parsed tree; concretely `x (y z)` re-prints as `(x (y z))` and `x y z`
re-prints as `((x y) z)`. -/
theorem claim_C5_roundtrip_canonical :
    (∀ (src : List Char) (ast : Ast) (t : Tree), parseAst src = some ast →
        ast.nodes = flatten t → appOnly t = true →
        unparseAst ast = some (canon t))
    ∧ ((parseAst "x (y z)".data).bind unparseAst) = some "(x (y z))".data
    ∧ ((parseAst "x y z".data).bind unparseAst) = some "((x y) z)".data := by
  refine ⟨?_, by decide, by decide⟩
  intro src ast t _ hnodes happ
  have hne : ¬ ast.nodes.isEmpty := by
    rw [hnodes, List.isEmpty_iff]
    exact flatten_ne_nil t
  rw [unparseAst, if_neg hne, hnodes, flatten_length]
  have h := unparse_on_flatten t [] [] (tsize t + 1) happ
    (le_trans (tdepth_le_tsize t) (Nat.le_succ _))
  simpa using h

/-- C5 witness: the program `x y`, its tree, and its canonical form. -/
theorem claim_C5_roundtrip_canonical_witness :
    unparseAst ⟨[.var 23, .var 24, .call 1], 11, [], 0, List.replicate 26 0⟩ =
      some (canon (Tree.call (Tree.var 23) (Tree.var 24))) :=
  claim_C5_roundtrip_canonical.1 "x y".data
    ⟨[.var 23, .var 24, .call 1], 11, [], 0, List.replicate 26 0⟩
    (Tree.call (Tree.var 23) (Tree.var 24)) (by decide) (by decide) (by decide)

theorem addErr_nodes (st : Ast) (m : String) : (addErr st m).nodes = st.nodes := rfl

theorem setBinding_nodes (st : Ast) (tok : Int) (d : Nat) :
    (setBinding st tok d).nodes = st.nodes := by
  unfold setBinding
  split <;> rfl

theorem setDepth_nodes (st : Ast) (d : Nat) : (setDepth st d).nodes = st.nodes := rfl

theorem lambda_rbracket_nodes (st : Ast) (zE : List Char) :
    (lambda_rbracket st zE).1.nodes = st.nodes := by
  unfold lambda_rbracket
  split <;> rfl

theorem zero_coerce_nodes (st : Ast) (tok : Int) :
    (zero_coerce st tok).1.nodes = st.nodes := by
  unfold zero_coerce
  split <;> rfl

theorem lex_varname_nodes (st : Ast) (l : List Char) :
    (lex_varname st l).1.nodes = st.nodes := by
  unfold lex_varname
  cases l with
  | nil => rfl
  | cons c r =>
    dsimp only
    split
    · rfl
    · cases r with
      | nil => rfl
      | cons c2 r2 =>
        dsimp only
        split <;> rfl

theorem lex_int_nodes (st : Ast) (l : List Char) :
    (lex_int st l).1.nodes = st.nodes := by
  unfold lex_int
  cases l with
  | nil => rfl
  | cons c r =>
    dsimp only
    split
    · rfl
    · cases r with
      | nil => rfl
      | cons c2 r2 =>
        dsimp only
        split <;> rfl

theorem ast_node_alloc_nodes (st : Ast) (n : AstNode) (st1 : Ast)
    (h : ast_node_alloc st n = some st1) : st1.nodes = st.nodes ++ [n] := by
  unfold ast_node_alloc at h
  split at h
  · cases h; rfl
  · cases h

theorem push_varname_nodes (st : Ast) (tok : Int) (st1 : Ast)
    (h : push_varname st tok = some st1) :
    st1.nodes = st.nodes ++ [.var ((tok.emod (2 ^ 32)).toNat)] := by
  unfold push_varname at h
  split at h
  · cases h
  · exact ast_node_alloc_nodes _ _ _ h

theorem push_bound_nodes (st : Ast) (d : Int) (st1 : Ast)
    (h : push_bound st d = some st1) :
    st1.nodes = st.nodes ++ [.bound d.toNat] := by
  unfold push_bound at h
  split at h
  · cases h
  · exact ast_node_alloc_nodes _ _ _ h

theorem push_var_emits (st : Ast) (tok : Int) (st1 : Ast)
    (h : push_var st tok = some st1) :
    ∃ t, st1.nodes = st.nodes ++ flatten t := by
  unfold push_var at h
  split at h
  · cases h
  · dsimp only at h
    split at h
    · exact ⟨.var ((tok.emod (2 ^ 32)).toNat), push_varname_nodes _ _ _ h⟩
    · exact ⟨.bound (depth_diff st.current_depth
          (st.binding_depths.getD tok.toNat 0)).toNat, push_bound_nodes _ _ _ h⟩

theorem Emits_congr (st st' : Ast) (r : PRes) (hn : st'.nodes = st.nodes)
    (h : Emits st' r) : Emits st r := by
  cases r with
  | ok st1 rest =>
    obtain ⟨t, ht⟩ := h
    exact ⟨t, by rw [ht, hn]⟩
  | fail st1 => rw [Emits] at h ⊢; rw [h, hn]
  | die => trivial
  | nofuel => trivial

theorem parser_emits (f : Nat) :
    (∀ st l, Emits st (parse_lambda f st l))
    ∧ (∀ st l, Emits st (parse_non_call_expr f st l))
    ∧ (∀ st l, Emits st (parse_expr f st l))
    ∧ (∀ st l, Emits st (parse_expr_while f st l))
    ∧ (∀ st l, EmitsLoop st (parse_expr_calls f st l)) := by
  induction f with
  | zero =>
    exact ⟨fun _ _ => trivial, fun _ _ => trivial, fun _ _ => trivial,
           fun _ _ => trivial, fun _ _ => trivial⟩
  | succ f ih =>
    obtain ⟨ihl, ihn, ihe, ihw, ihc⟩ := ih
    refine ⟨?_, ?_, ?_, ?_, ?_⟩
    -- parse_lambda
    · intro st l
      cases l with
      | nil => trivial
      | cons c r =>
        rw [parse_lambda]
        split
        case isFalse => trivial
        case isTrue hc =>
          rcases hlv : lex_varname st (eat_white r) with ⟨stA, tokA, restA⟩
          have hAn : stA.nodes = st.nodes := by
            have h0 := lex_varname_nodes st (eat_white r)
            rw [hlv] at h0; exact h0
          dsimp only
          rw [hlv]
          dsimp only
          rcases hrb : lambda_rbracket stA (eat_white restA) with ⟨stB, zB⟩
          have hBn : stB.nodes = st.nodes := by
            have h0 := lambda_rbracket_nodes stA (eat_white restA)
            rw [hrb] at h0; rw [h0, hAn]
          dsimp only
          cases hne : parse_non_call_expr f
              (setBinding (setDepth stB (stB.current_depth + 1)) tokA
                (stB.current_depth + 1)) zB with
          | die => trivial
          | nofuel => trivial
          | fail st1 =>
            have he := ihn (setBinding (setDepth stB (stB.current_depth + 1)) tokA
              (stB.current_depth + 1)) zB
            rw [hne] at he
            rw [Emits] at he ⊢
            rw [addErr_nodes, he, setBinding_nodes, setDepth_nodes, hBn]
          | ok st1 rest1 =>
            have he := ihn (setBinding (setDepth stB (stB.current_depth + 1)) tokA
              (stB.current_depth + 1)) zB
            rw [hne] at he
            obtain ⟨b, hb⟩ := he
            rw [setBinding_nodes, setDepth_nodes, hBn] at hb
            dsimp only
            split
            · trivial
            · cases hpv : push_varname
                  (setDepth (setBinding st1 tokA
                    (if 0 ≤ tokA then stB.binding_depths.getD tokA.toNat 0 else 0))
                    (stB.current_depth + 1 - 1)) tokA with
              | none => trivial
              | some st2 =>
                dsimp only
                cases hal : ast_node_alloc st2 .lam with
                | none => trivial
                | some st3 =>
                  dsimp only
                  refine ⟨.lam ((tokA.emod (2 ^ 32)).toNat) b, ?_⟩
                  have h2 := push_varname_nodes _ _ _ hpv
                  have h3 := ast_node_alloc_nodes _ _ _ hal
                  rw [h3, h2, setDepth_nodes, setBinding_nodes, hb, flatten]
                  simp
    -- parse_non_call_expr
    · intro st l
      rw [parse_non_call_expr]
      rcases hlv : lex_varname st l with ⟨stA, tokA, restA⟩
      have hAn : stA.nodes = st.nodes := by
        have h0 := lex_varname_nodes st l
        rw [hlv] at h0; exact h0
      dsimp only
      split
      case isTrue htok =>
        cases hpv : push_var stA tokA with
        | none => trivial
        | some st1 =>
          dsimp only
          obtain ⟨t, ht⟩ := push_var_emits _ _ _ hpv
          exact ⟨t, by rw [ht, hAn]⟩
      case isFalse htok =>
        rcases hli : lex_int stA l with ⟨stB, tokB, restB⟩
        have hBn : stB.nodes = st.nodes := by
          have h0 := lex_int_nodes stA l
          rw [hli] at h0; rw [h0, hAn]
        dsimp only
        split
        case isTrue htok2 =>
          rcases hzc : zero_coerce stB tokB with ⟨stC, tokC⟩
          have hCn : stC.nodes = st.nodes := by
            have h0 := zero_coerce_nodes stB tokB
            rw [hzc] at h0; rw [h0, hBn]
          dsimp only
          cases hpb : push_bound stC (tokC - 1) with
          | none => trivial
          | some st1 =>
            dsimp only
            refine ⟨.bound (tokC - 1).toNat, ?_⟩
            rw [push_bound_nodes _ _ _ hpb, hCn, flatten]
        case isFalse htok2 =>
          cases l with
          | nil =>
            rw [Emits]
            exact hBn
          | cons c r =>
            dsimp only
            split
            case isTrue hpar =>
              cases hpe : parse_expr f stB r with
              | die => trivial
              | nofuel => trivial
              | fail st1 =>
                have he := ihe stB r
                rw [hpe] at he
                rw [Emits] at he ⊢
                rw [addErr_nodes, he, hBn]
              | ok st1 rest1 =>
                have he := ihe stB r
                rw [hpe] at he
                obtain ⟨t, ht⟩ := he
                dsimp only
                split
                · exact ⟨t, by rw [ht, hBn]⟩
                · exact ⟨t, by rw [addErr_nodes, ht, hBn]⟩
            case isFalse hpar =>
              split
              case isTrue hbrk =>
                exact Emits_congr st stB _ hBn (ihl stB (c :: r))
              case isFalse hbrk =>
                rw [Emits]
                exact hBn
    -- parse_expr
    · intro st l
      rw [parse_expr]
      exact ihw st (eat_white l)
    -- parse_expr_while
    · intro st l
      rw [parse_expr_while]
      cases hne : parse_non_call_expr f st l with
      | die => trivial
      | nofuel => trivial
      | ok st1 z =>
        have he := ihn st l
        rw [hne] at he
        obtain ⟨t0, ht0⟩ := he
        dsimp only
        cases hres : parse_expr_calls f st1 z with
        | die => trivial
        | nofuel => trivial
        | fail st2 =>
          have hcl := ihc st1 z
          rw [hres] at hcl
          cases hcl
        | ok st2 rest =>
          have hcl := ihc st1 z
          rw [hres] at hcl
          obtain ⟨t, ht⟩ := hcl st.nodes t0 ht0
          exact ⟨t, ht⟩
      | fail st1 =>
        have he := ihn st l
        rw [hne] at he
        rw [Emits] at he
        dsimp only
        have h1n : (if st1.errors.isEmpty = true then addErr st1 "Expected expr"
            else st1).nodes = st.nodes := by
          split
          · rw [addErr_nodes, he]
          · exact he
        cases l with
        | nil =>
          rw [Emits]
          exact h1n
        | cons c r =>
          dsimp only
          exact Emits_congr st _ _ h1n (ihw _ (eat_white r))
    -- parse_expr_calls
    · intro st l
      rw [parse_expr_calls]
      split
      case isTrue hemp => trivial
      case isFalse hemp =>
        dsimp only
        cases hne : parse_non_call_expr f st (eat_white l) with
        | die => trivial
        | nofuel => trivial
        | fail st1 =>
          have he := ihn st (eat_white l)
          rw [hne] at he
          rw [Emits] at he
          dsimp only
          intro base t0 hbase
          exact ⟨t0, by rw [he, hbase]⟩
        | ok st1 z1 =>
          have he := ihn st (eat_white l)
          rw [hne] at he
          obtain ⟨ta, hta⟩ := he
          dsimp only
          split
          case isTrue => trivial
          case isFalse hemp1 =>
            split
            case isTrue => trivial
            case isFalse hsz =>
              cases hal : ast_node_alloc st1
                  (.call (st1.nodes.length - 1 - (st.nodes.length - 1))) with
              | none => trivial
              | some st2 =>
                dsimp only
                have h2 := ast_node_alloc_nodes _ _ _ hal
                cases hres : parse_expr_calls f st2 z1 with
                | die => trivial
                | nofuel => trivial
                | fail st3 =>
                  have hcl := ihc st2 z1
                  rw [hres] at hcl
                  cases hcl
                | ok st3 rest =>
                  have hcl := ihc st2 z1
                  rw [hres] at hcl
                  intro base t0 hbase
                  have hstlen : 1 ≤ st.nodes.length := by
                    cases hn0 : st.nodes with
                    | nil => rw [hn0] at hemp; exact absurd rfl hemp
                    | cons a as => simp only [List.length_cons]; omega
                  have hlen1 : st1.nodes.length =
                      st.nodes.length + (flatten ta).length := by
                    rw [hta]; simp
                  have hsz' : st1.nodes.length - 1 - (st.nodes.length - 1) =
                      (flatten ta).length := by omega
                  have h2' : st2.nodes = base ++ flatten (.call t0 ta) := by
                    rw [h2, hsz', hta, hbase, flatten]
                    simp [List.append_assoc]
                  exact hcl base (.call t0 ta) h2'

/-- Every AST `parse` returns is empty or the postfix encoding of one
complete tree. -/
theorem parseAst_tree (src : List Char) (ast : Ast) (h : parseAst src = some ast) :
    ast.nodes = [] ∨ ∃ t, ast.nodes = flatten t := by
  have he := (parser_emits (parseFuel src)).2.2.1 (initAst src) src
  unfold parseAst at h
  cases hres : parse_expr (parseFuel src) (initAst src) src with
  | die => rw [hres] at h; cases h
  | nofuel => rw [hres] at h; cases h
  | fail st =>
    rw [hres] at h he
    cases h
    rw [Emits] at he
    left
    exact he
  | ok st rest =>
    rw [hres] at h he
    cases rest with
    | nil =>
      cases h
      obtain ⟨t, ht⟩ := he
      right
      exact ⟨t, by simpa [initAst] using ht⟩
    | cons a as => cases h

/-- Every `Call` node in a flattened tree closes a decomposition: the
argument subtree's encoding sits immediately before it with length
`arg_size`, and the callee subtree's encoding sits immediately before
that. -/
theorem flatten_call_decomp :
    ∀ (t : Tree) (i s : Nat), (flatten t)[i]? = some (.call s) →
      s + 1 ≤ i ∧
      ∃ (tf ta : Tree) (pre post : List AstNode),
        flatten t = pre ++ flatten tf ++ flatten ta ++ [AstNode.call s] ++ post ∧
        (flatten ta).length = s ∧
        pre.length + (flatten tf).length + s = i := by
  intro t
  induction t with
  | var tok =>
    intro i s h
    cases i with
    | zero => simp [flatten] at h
    | succ n => simp [flatten] at h
  | bound d =>
    intro i s h
    cases i with
    | zero => simp [flatten] at h
    | succ n => simp [flatten] at h
  | lam tok b ihb =>
    intro i s h
    rw [flatten] at h
    by_cases hi : i < (flatten b).length
    · rw [List.getElem?_append_left hi] at h
      obtain ⟨hle, tf, ta, pre, post, heq, hlen, hidx⟩ := ihb i s h
      refine ⟨hle, tf, ta, pre, post ++ [.var tok, .lam], ?_, hlen, hidx⟩
      rw [flatten, heq]
      simp [List.append_assoc]
    · rw [List.getElem?_append_right (Nat.le_of_not_lt hi)] at h
      rcases hj : i - (flatten b).length with _ | j
      · rw [hj] at h; simp at h
      · rcases j with _ | j2
        · rw [hj] at h; simp at h
        · rw [hj] at h; simp at h
  | call tf0 ta0 ihf iha =>
    intro i s h
    rw [flatten] at h
    have hf1 : 1 ≤ (flatten tf0).length := by
      cases hn : flatten tf0 with
      | nil => exact absurd hn (flatten_ne_nil tf0)
      | cons a as => simp [hn]
    by_cases h1 : i < (flatten tf0).length
    · rw [List.append_assoc, List.getElem?_append_left h1] at h
      obtain ⟨hle, tf, ta, pre, post, heq, hlen, hidx⟩ := ihf i s h
      refine ⟨hle, tf, ta, pre,
        post ++ flatten ta0 ++ [AstNode.call (flatten ta0).length], ?_, hlen, hidx⟩
      rw [flatten, heq]
      simp [List.append_assoc]
    · by_cases h2 : i < (flatten tf0).length + (flatten ta0).length
      · have h1' := Nat.le_of_not_lt h1
        rw [List.append_assoc, List.getElem?_append_right h1'] at h
        rw [List.getElem?_append_left (by omega)] at h
        obtain ⟨hle, tf, ta, pre, post, heq, hlen, hidx⟩ :=
          iha (i - (flatten tf0).length) s h
        refine ⟨by omega, tf, ta, flatten tf0 ++ pre,
          post ++ [AstNode.call (flatten ta0).length], ?_, hlen, ?_⟩
        · rw [flatten, heq]
          simp [List.append_assoc]
        · simp only [List.length_append]
          omega
      · by_cases h3 : i = (flatten tf0).length + (flatten ta0).length
        · have hget : (flatten tf0 ++ flatten ta0 ++
              [AstNode.call (flatten ta0).length])[i]? =
              some (AstNode.call (flatten ta0).length) := by
            rw [h3, ← List.length_append,
              List.getElem?_append_right (Nat.le_refl _)]
            simp
          rw [hget] at h
          cases h
          refine ⟨by omega, tf0, ta0, [], [], ?_, rfl, by simp; omega⟩
          simp [flatten]
        · have hge : (flatten tf0).length + (flatten ta0).length + 1 ≤ i := by
            omega
          have hnone : (flatten tf0 ++ flatten ta0 ++
              [AstNode.call (flatten ta0).length])[i]? = none := by
            apply List.getElem?_eq_none
            simp only [List.length_append, List.length_cons, List.length_nil]
            omega
          rw [hnone] at h
          cases h

theorem spans_bounds :
    ∀ (t : Tree) (off : Nat) (p : Nat × Nat), p ∈ spans off t →
      off ≤ p.1 ∧ p.1 ≤ p.2 ∧ p.2 < off + tsize t := by
  intro t
  induction t with
  | var tok =>
    intro off p hp
    simp [spans] at hp
    simp [hp, tsize]
  | bound d =>
    intro off p hp
    simp [spans] at hp
    simp [hp, tsize]
  | lam tok b ihb =>
    intro off p hp
    rw [spans] at hp
    rcases List.mem_append.mp hp with hb | hrest
    · have := ihb off p hb
      rw [tsize]
      omega
    · rcases List.mem_cons.mp hrest with h1 | h2
      · rw [h1]; rw [tsize]; simp
      · rcases List.mem_cons.mp h2 with h3 | h4
        · rw [h3]; rw [tsize]; simp; omega
        · cases h4
  | call tf ta ihf iha =>
    intro off p hp
    rw [spans] at hp
    rcases List.mem_append.mp hp with hfa | htop
    · rcases List.mem_append.mp hfa with hf | ha
      · have := ihf off p hf
        rw [tsize]
        omega
      · have := iha (off + tsize tf) p ha
        rw [tsize]
        omega
    · rcases List.mem_cons.mp htop with h1 | h2
      · rw [h1]; rw [tsize]; simp
        have := tsize_pos tf
        have := tsize_pos ta
        omega
      · cases h2

theorem spans_top :
    ∀ (t : Tree) (off : Nat), (off, off + tsize t - 1) ∈ spans off t := by
  intro t off
  cases t with
  | var tok => simp [spans, tsize]
  | bound d => simp [spans, tsize]
  | lam tok b =>
    simp only [spans, tsize]
    apply List.mem_append.mpr
    right
    apply List.mem_cons.mpr
    right
    apply List.mem_cons.mpr
    left
    simp
    omega
  | call tf ta =>
    simp only [spans, tsize]
    apply List.mem_append.mpr
    right
    apply List.mem_cons.mpr
    left
    simp
    omega

theorem spans_laminar :
    ∀ (t : Tree) (off : Nat) (p q : Nat × Nat),
      p ∈ spans off t → q ∈ spans off t → NestedOrDisjoint p q := by
  intro t
  induction t with
  | var tok =>
    intro off p q hp hq
    simp [spans] at hp hq
    rw [hp, hq, NestedOrDisjoint]
    simp
  | bound d =>
    intro off p q hp hq
    simp [spans] at hp hq
    rw [hp, hq, NestedOrDisjoint]
    simp
  | lam tok b ihb =>
    intro off p q hp hq
    rw [spans] at hp hq
    rcases List.mem_append.mp hp with hpb | hpr
    · rcases List.mem_append.mp hq with hqb | hqr
      · exact ihb off p q hpb hqb
      · have hbp := spans_bounds b off p hpb
        rcases List.mem_cons.mp hqr with h1 | h2
        · rw [NestedOrDisjoint, h1]
          simp
          omega
        · rcases List.mem_cons.mp h2 with h3 | h4
          · rw [NestedOrDisjoint, h3]
            simp
            omega
          · cases h4
    · rcases List.mem_append.mp hq with hqb | hqr
      · have hbq := spans_bounds b off q hqb
        rcases List.mem_cons.mp hpr with h1 | h2
        · rw [NestedOrDisjoint, h1]
          simp
          omega
        · rcases List.mem_cons.mp h2 with h3 | h4
          · rw [NestedOrDisjoint, h3]
            simp
            omega
          · cases h4
      · rcases List.mem_cons.mp hpr with hp1 | hp2
        · rcases List.mem_cons.mp hqr with hq1 | hq2
          · rw [NestedOrDisjoint, hp1, hq1]; simp
          · rcases List.mem_cons.mp hq2 with hq3 | hq4
            · rw [NestedOrDisjoint, hp1, hq3]; simp
            · cases hq4
        · rcases List.mem_cons.mp hp2 with hp3 | hp4
          · rcases List.mem_cons.mp hqr with hq1 | hq2
            · rw [NestedOrDisjoint, hp3, hq1]; simp
            · rcases List.mem_cons.mp hq2 with hq3 | hq4
              · rw [NestedOrDisjoint, hp3, hq3]; simp
              · cases hq4
          · cases hp4
  | call tf ta ihf iha =>
    intro off p q hp hq
    rw [spans] at hp hq
    have hsf := tsize_pos tf
    have hsa := tsize_pos ta
    rcases List.mem_append.mp hp with hpfa | hptop
    · rcases List.mem_append.mp hq with hqfa | hqtop
      · rcases List.mem_append.mp hpfa with hpf | hpa
        · rcases List.mem_append.mp hqfa with hqf | hqa
          · exact ihf off p q hpf hqf
          · have hbp := spans_bounds tf off p hpf
            have hbq := spans_bounds ta (off + tsize tf) q hqa
            rw [NestedOrDisjoint]
            omega
        · rcases List.mem_append.mp hqfa with hqf | hqa
          · have hbp := spans_bounds ta (off + tsize tf) p hpa
            have hbq := spans_bounds tf off q hqf
            rw [NestedOrDisjoint]
            omega
          · exact iha (off + tsize tf) p q hpa hqa
      · rcases List.mem_cons.mp hqtop with hq1 | hq2
        · rcases List.mem_append.mp hpfa with hpf | hpa
          · have hbp := spans_bounds tf off p hpf
            rw [NestedOrDisjoint, hq1]
            simp
            omega
          · have hbp := spans_bounds ta (off + tsize tf) p hpa
            rw [NestedOrDisjoint, hq1]
            simp
            omega
        · cases hq2
    · rcases List.mem_cons.mp hptop with hp1 | hp2
      · rcases List.mem_append.mp hq with hqfa | hqtop
        · rcases List.mem_append.mp hqfa with hqf | hqa
          · have hbq := spans_bounds tf off q hqf
            rw [NestedOrDisjoint, hp1]
            simp
            omega
          · have hbq := spans_bounds ta (off + tsize tf) q hqa
            rw [NestedOrDisjoint, hp1]
            simp
            omega
        · rcases List.mem_cons.mp hqtop with hq1 | hq2
          · rw [NestedOrDisjoint, hp1, hq1]; simp
          · cases hq2
      · cases hp2

/-- The ranges the claim computes for a `Call` node — argument range
`[i-s, i-1]` and the callee subtree's range ending at `i-1-s` — are both
subtree ranges of the encoded tree. -/
theorem call_spans_mem :
    ∀ (t : Tree) (off i s : Nat), (flatten t)[i]? = some (.call s) →
      (off + (i - s), off + (i - 1)) ∈ spans off t ∧
      ∃ lo, (lo, off + (i - 1 - s)) ∈ spans off t := by
  intro t
  induction t with
  | var tok =>
    intro off i s h
    cases i with
    | zero => simp [flatten] at h
    | succ n => simp [flatten] at h
  | bound d =>
    intro off i s h
    cases i with
    | zero => simp [flatten] at h
    | succ n => simp [flatten] at h
  | lam tok b ihb =>
    intro off i s h
    rw [flatten] at h
    by_cases hi : i < (flatten b).length
    · rw [List.getElem?_append_left hi] at h
      obtain ⟨h1, ⟨lo, h2⟩⟩ := ihb off i s h
      rw [spans]
      exact ⟨List.mem_append.mpr (Or.inl h1), lo,
        List.mem_append.mpr (Or.inl h2)⟩
    · rw [List.getElem?_append_right (Nat.le_of_not_lt hi)] at h
      rcases hj : i - (flatten b).length with _ | j
      · rw [hj] at h; simp at h
      · rcases j with _ | j2
        · rw [hj] at h; simp at h
        · rw [hj] at h; simp at h
  | call tf ta ihf iha =>
    intro off i s h
    rw [flatten] at h
    have hlf := flatten_length tf
    have hla := flatten_length ta
    have hf1 : 1 ≤ (flatten tf).length := by
      cases hn : flatten tf with
      | nil => exact absurd hn (flatten_ne_nil tf)
      | cons a as => simp [hn]
    have ha1 : 1 ≤ (flatten ta).length := by
      cases hn : flatten ta with
      | nil => exact absurd hn (flatten_ne_nil ta)
      | cons a as => simp [hn]
    by_cases h1 : i < (flatten tf).length
    · rw [List.append_assoc, List.getElem?_append_left h1] at h
      obtain ⟨hm1, ⟨lo, hm2⟩⟩ := ihf off i s h
      rw [spans]
      exact ⟨List.mem_append.mpr (Or.inl (List.mem_append.mpr (Or.inl hm1))),
        lo, List.mem_append.mpr (Or.inl (List.mem_append.mpr (Or.inl hm2)))⟩
    · by_cases h2 : i < (flatten tf).length + (flatten ta).length
      · have h1' := Nat.le_of_not_lt h1
        rw [List.append_assoc, List.getElem?_append_right h1'] at h
        rw [List.getElem?_append_left (by omega)] at h
        have hsle := (flatten_call_decomp ta (i - (flatten tf).length) s h).1
        obtain ⟨hm1, ⟨lo, hm2⟩⟩ := iha (off + tsize tf) (i - (flatten tf).length) s h
        have e1 : off + tsize tf + (i - (flatten tf).length - s) = off + (i - s) := by
          omega
        have e2 : off + tsize tf + (i - (flatten tf).length - 1) = off + (i - 1) := by
          omega
        have e3 : off + tsize tf + (i - (flatten tf).length - 1 - s) =
            off + (i - 1 - s) := by
          omega
        rw [e1, e2] at hm1
        rw [e3] at hm2
        rw [spans]
        exact ⟨List.mem_append.mpr (Or.inl (List.mem_append.mpr (Or.inr hm1))),
          lo, List.mem_append.mpr (Or.inl (List.mem_append.mpr (Or.inr hm2)))⟩
      · by_cases h3 : i = (flatten tf).length + (flatten ta).length
        · have hget : (flatten tf ++ flatten ta ++
              [AstNode.call (flatten ta).length])[i]? =
              some (AstNode.call (flatten ta).length) := by
            rw [h3, ← List.length_append,
              List.getElem?_append_right (Nat.le_refl _)]
            simp
          rw [hget] at h
          cases h
          constructor
          · have e1 : off + (i - (flatten ta).length) = off + tsize tf := by omega
            have e2 : off + (i - 1) = off + tsize tf + tsize ta - 1 := by omega
            rw [e1, e2, spans]
            exact List.mem_append.mpr (Or.inl (List.mem_append.mpr
              (Or.inr (spans_top ta (off + tsize tf)))))
          · refine ⟨off, ?_⟩
            have e3 : off + (i - 1 - (flatten ta).length) = off + tsize tf - 1 := by
              omega
            rw [e3, spans]
            exact List.mem_append.mpr (Or.inl (List.mem_append.mpr
              (Or.inl (spans_top tf off))))
        · have hnone : (flatten tf ++ flatten ta ++
              [AstNode.call (flatten ta).length])[i]? = none := by
            apply List.getElem?_eq_none
            simp only [List.length_append, List.length_cons, List.length_nil]
            omega
          rw [hnone] at h
          cases h

/-- C1: postfix layout invariant.  Every AST `parse` produces is empty or
the postfix encoding of one tree (subtrees contiguous, root last).  In any
encoded tree, a `Call` node at index `i` with `arg_size = s` has `s+1 ≤ i`,
the argument subtree occupying exactly slots `[i-s, i-1]` (root at `i-1`)
and the callee subtree ending at slot `i-1-s`, both complete encodings of
trees; moreover both computed ranges are subtree ranges of the program,
and any two subtree ranges are nested or disjoint (none partially
overlaps another). -/
theorem claim_C1_postfix_layout :
    (∀ (src : List Char) (ast : Ast), parseAst src = some ast →
        ast.nodes = [] ∨ ∃ t, ast.nodes = flatten t)
    ∧ (∀ (t : Tree) (i s : Nat), (flatten t)[i]? = some (.call s) →
        s + 1 ≤ i ∧
        ∃ (tf ta : Tree) (pre post : List AstNode),
          flatten t = pre ++ flatten tf ++ flatten ta ++ [AstNode.call s] ++ post ∧
          (flatten ta).length = s ∧
          pre.length + (flatten tf).length + s = i)
    ∧ (∀ (t : Tree) (i s : Nat), (flatten t)[i]? = some (.call s) →
        (i - s, i - 1) ∈ spans 0 t ∧ ∃ lo, (lo, i - 1 - s) ∈ spans 0 t)
    ∧ (∀ (t : Tree) (p q : Nat × Nat), p ∈ spans 0 t → q ∈ spans 0 t →
        NestedOrDisjoint p q) := by
  refine ⟨parseAst_tree, flatten_call_decomp, ?_, fun t => spans_laminar t 0⟩
  intro t i s h
  have hm := call_spans_mem t 0 i s h
  simpa using hm

/-- C1 witness: the two-node application `x y` and its `Call` node. -/
theorem claim_C1_postfix_layout_witness :
    1 + 1 ≤ 2 ∧
    ∃ (tf ta : Tree) (pre post : List AstNode),
      flatten (Tree.call (Tree.var 23) (Tree.var 24)) =
        pre ++ flatten tf ++ flatten ta ++ [AstNode.call 1] ++ post ∧
      (flatten ta).length = 1 ∧
      pre.length + (flatten tf).length + 1 = 2 :=
  claim_C1_postfix_layout.2.1 (Tree.call (Tree.var 23) (Tree.var 24)) 2 1 (by decide)

/-- C8 witness: a lone `Lambda` node kills the solve, and inspection of a
`Lambda` node's tag. -/
theorem claim_C8_only_var_call_tags_witness :
    solve_types [AstNode.lam] 1 1 = none :=
  claim_C8_only_var_call_tags.2.1 [AstNode.lam] 1 1 0 .lam (by decide) (by decide)
    (by decide) (by decide)

end Lambda
